import Mathlib

/-!
Shallow embedding of the Caesar cipher cracker (src/cpp/caesar.cpp).

Texts are modelled as lists of Unicode codepoints (`List Nat`), matching the
C++ code which decodes UTF-8 into `char32_t` codepoints before any analysis.
Floating-point scores are modelled with exact rationals (`ℚ`); the C++ `%`
on `int` (truncated remainder) is modelled with `Int.tmod`.
-/

namespace Caesar

/-- The two supported languages ("ru" / "en" tags in the C++ code). -/
inductive Lang where
  | ru
  | en
deriving DecidableEq, Repr, Inhabited

open Lang

/-- `is_ru_lower` from the source: а-я (U+0430..U+044F) plus ё (U+0451). -/
def is_ru_lower (c : Nat) : Bool := (0x430 ≤ c && c ≤ 0x44F) || c == 0x451

/-- `is_ru_upper` from the source: А-Я (U+0410..U+042F) plus Ё (U+0401). -/
def is_ru_upper (c : Nat) : Bool := (0x410 ≤ c && c ≤ 0x42F) || c == 0x401

/-- `is_ru` from the source. -/
def is_ru (c : Nat) : Bool := is_ru_lower c || is_ru_upper c

/-- `is_en_lower` from the source: a-z. -/
def is_en_lower (c : Nat) : Bool := 97 ≤ c && c ≤ 122

/-- `is_en_upper` from the source: A-Z. -/
def is_en_upper (c : Nat) : Bool := 65 ≤ c && c ≤ 90

/-- `is_en` from the source. -/
def is_en (c : Nat) : Bool := is_en_lower c || is_en_upper c

/-- `to_lower` from the source (RU + EN). -/
def to_lower (c : Nat) : Nat :=
  if c = 0x401 then 0x451
  else if 0x410 ≤ c ∧ c ≤ 0x42F then c + 0x20
  else if 65 ≤ c ∧ c ≤ 90 then c + 32
  else c

/-- `to_upper` from the source (RU + EN). -/
def to_upper (c : Nat) : Nat :=
  if c = 0x451 then 0x401
  else if 0x430 ≤ c ∧ c ≤ 0x44F then c - 0x20
  else if 97 ≤ c ∧ c ≤ 122 then c - 32
  else c

/-- `RU_SIZE` / `EN_SIZE` from the source, selected by language. -/
def sizeN : Lang → Nat
  | ru => 33
  | en => 26

/-- `ru_index` from the source: index of a letter in the Russian alphabet
(0-32) or -1 if not Russian; ё (U+0451) sits at alphabet position 6. -/
def ru_index (c : Nat) : Int :=
  let c := to_lower c
  if c = 0x451 then 6
  else if 0x430 ≤ c ∧ c ≤ 0x435 then (c : Int) - 0x430
  else if 0x436 ≤ c ∧ c ≤ 0x44F then (c : Int) - 0x436 + 7
  else -1

/-- `ru_from_index` from the source (lowercase letter for an index). -/
def ru_from_index (idx : Int) : Nat :=
  if idx = 6 then 0x451
  else if idx < 6 then (0x430 + idx).toNat
  else (0x436 + (idx - 7)).toNat

/-- `en_index` from the source: 0-25 or -1. -/
def en_index (c : Nat) : Int :=
  let c := to_lower c
  if 97 ≤ c ∧ c ≤ 122 then (c : Int) - 97 else -1

/-- `en_from_index` from the source. -/
def en_from_index (idx : Int) : Nat := (97 + idx).toNat

/-- `is_upper_cp` from the source. -/
def is_upper_cp (c : Nat) : Bool := is_ru_upper c || is_en_upper c

/-- Per-language letter index dispatch (`idx_fn` in the source). -/
def lang_index : Lang → Nat → Int
  | ru => ru_index
  | en => en_index

/-- Per-language index-to-letter dispatch (`from_fn` in the source). -/
def lang_from_index : Lang → Int → Nat
  | ru => ru_from_index
  | en => en_from_index

/-- Per-language letter classification dispatch (`is_letter` callbacks). -/
def is_lang : Lang → Nat → Bool
  | ru => is_ru
  | en => is_en

/-- The body of the per-codepoint loop of `decrypt` in the source: shift a
single codepoint by `shift` positions backward in the alphabet of `lang`,
preserving case; codepoints outside that alphabet pass through unchanged. -/
def decryptChar (cp : Nat) (shift : Int) (lang : Lang) : Nat :=
  let sz : Int := sizeN lang
  let up := is_upper_cp cp
  let idx := lang_index lang (to_lower cp)
  if idx < 0 then cp
  else
    let ni := ((idx - shift).tmod sz + sz).tmod sz
    let c := lang_from_index lang ni
    if up then to_upper c else c

/-- `decrypt` from the source, on codepoint lists. -/
def decrypt (cps : List Nat) (shift : Int) (lang : Lang) : List Nat :=
  cps.map (fun cp => decryptChar cp shift lang)

/-- Codepoints of a Lean string literal (the UTF-8 decoding of the
corresponding C++ string literal). -/
def cpsOf (s : String) : List Nat := s.data.map Char.toNat


theorem tmod_eq_self_of_bounds {a sz : Int} (h1 : -sz < a) (h2 : a < sz) : a.tmod sz = a := by
  rcases le_or_lt 0 a with ha | ha
  · exact Int.tmod_eq_of_lt ha h2
  · obtain ⟨m, rfl⟩ := Int.eq_negSucc_of_lt_zero ha
    obtain ⟨n, rfl⟩ := Int.eq_ofNat_of_zero_le (by omega : (0:Int) ≤ sz)
    show -(Int.ofNat ((m+1) % n)) = Int.negSucc m
    have hmn : m + 1 < n := by
      rw [Int.negSucc_eq] at h1
      omega
    rw [Nat.mod_eq_of_lt hmn, Int.negSucc_eq, Int.ofNat_eq_natCast]
    push_cast
    ring

theorem shift_index_eq {idx k sz : Int} (h0 : 0 ≤ idx) (h1 : idx < sz) (h2 : 0 ≤ k) (h3 : k < sz) :
    ((idx - k).tmod sz + sz).tmod sz = if k ≤ idx then idx - k else idx - k + sz := by
  have ha : (idx - k).tmod sz = idx - k := tmod_eq_self_of_bounds (by omega) (by omega)
  rw [ha]
  rcases le_or_lt k idx with h | h
  · rw [if_pos h]
    have : (idx - k + sz).tmod sz = (idx - k + sz) % sz := Int.tmod_eq_emod (by omega) (by omega)
    rw [this]
    have : (idx - k + sz) % sz = (idx - k) % sz := by
      conv_lhs => rw [show idx - k + sz = idx - k + sz * 1 by ring]
      rw [Int.add_mul_emod_self_left]
    rw [this, Int.emod_eq_of_lt (by omega) (by omega)]
  · rw [if_neg (by omega)]
    exact tmod_eq_self_of_bounds (by omega) (by omega)

theorem lang_index_lt (lang : Lang) (cp : Nat) : lang_index lang cp < sizeN lang := by
  cases lang <;>
    simp only [lang_index, ru_index, en_index, sizeN, to_lower] <;>
    split_ifs <;> omega

theorem lang_index_ge (lang : Lang) (cp : Nat) : -1 ≤ lang_index lang cp := by
  cases lang <;>
    simp only [lang_index, ru_index, en_index, sizeN, to_lower] <;>
    split_ifs <;> omega


theorem from_index_to_lower (lang : Lang) (i : Int) (h0 : 0 ≤ i) (h1 : i < sizeN lang) :
    to_lower (lang_from_index lang i) = lang_from_index lang i := by
  cases lang <;>
    simp only [lang_from_index, ru_from_index, en_from_index, sizeN] at h1 ⊢ <;>
    unfold to_lower <;> split_ifs <;> omega

theorem from_index_not_upper (lang : Lang) (i : Int) (h0 : 0 ≤ i) (h1 : i < sizeN lang) :
    is_upper_cp (lang_from_index lang i) = false := by
  cases lang <;>
    simp only [lang_from_index, ru_from_index, en_from_index, sizeN] at h1 ⊢ <;>
    simp only [is_upper_cp, is_ru_upper, is_en_upper, Bool.or_eq_false_iff,
      Bool.and_eq_false_iff, beq_eq_false_iff_ne, ne_eq, decide_eq_false_iff_not, not_le] <;>
    first
    | (split_ifs <;> omega)
    | omega

theorem from_index_index (lang : Lang) (i : Int) (h0 : 0 ≤ i) (h1 : i < sizeN lang) :
    lang_index lang (lang_from_index lang i) = i := by
  have hl := from_index_to_lower lang i h0 h1
  cases lang <;>
    simp only [lang_from_index] at hl ⊢ <;>
    simp only [lang_index, ru_index, en_index, hl] <;>
    simp only [lang_from_index, ru_from_index, en_from_index, sizeN] at h1 hl ⊢ <;>
    first
    | (split_ifs at hl ⊢ <;> omega)
    | omega

theorem from_index_is_lang (lang : Lang) (i : Int) (h0 : 0 ≤ i) (h1 : i < sizeN lang) :
    is_lang lang (lang_from_index lang i) = true := by
  cases lang <;>
    simp only [lang_from_index, ru_from_index, en_from_index, sizeN] at h1 ⊢ <;>
    simp only [is_lang, is_ru, is_en, is_ru_lower, is_en_lower, Bool.or_eq_true,
      Bool.and_eq_true, beq_iff_eq, decide_eq_true_eq] <;>
    first
    | (split_ifs <;> omega)
    | omega

theorem to_upper_from_index_to_lower (lang : Lang) (i : Int) (h0 : 0 ≤ i) (h1 : i < sizeN lang) :
    to_lower (to_upper (lang_from_index lang i)) = lang_from_index lang i := by
  cases lang <;>
    simp only [lang_from_index, ru_from_index, en_from_index, sizeN] at h1 ⊢ <;>
    unfold to_upper <;>
    split_ifs <;> unfold to_lower <;> split_ifs <;> omega

theorem to_upper_from_index_upper (lang : Lang) (i : Int) (h0 : 0 ≤ i) (h1 : i < sizeN lang) :
    is_upper_cp (to_upper (lang_from_index lang i)) = true := by
  cases lang <;>
    simp only [lang_from_index, ru_from_index, en_from_index, sizeN] at h1 ⊢ <;>
    unfold to_upper <;>
    split_ifs <;>
    simp only [is_upper_cp, is_ru_upper, is_en_upper, Bool.or_eq_true,
      Bool.and_eq_true, beq_iff_eq, decide_eq_true_eq, eq_self_iff_true, or_true, true_or] <;>
    omega

theorem to_upper_from_index_is_lang (lang : Lang) (i : Int) (h0 : 0 ≤ i) (h1 : i < sizeN lang) :
    is_lang lang (to_upper (lang_from_index lang i)) = true := by
  cases lang <;>
    simp only [lang_from_index, ru_from_index, en_from_index, sizeN] at h1 ⊢ <;>
    unfold to_upper <;>
    split_ifs <;>
    simp only [is_lang, is_ru, is_en, is_ru_lower, is_en_lower, is_ru_upper, is_en_upper,
      Bool.or_eq_true, Bool.and_eq_true, beq_iff_eq, decide_eq_true_eq,
      eq_self_iff_true, or_true, true_or] <;>
    omega

theorem to_lower_to_lower (cp : Nat) : to_lower (to_lower cp) = to_lower cp := by
  unfold to_lower; split_ifs <;> omega

set_option maxHeartbeats 1000000 in
theorem reconstruct_spec (lang : Lang) (cp : Nat) (h : 0 ≤ lang_index lang (to_lower cp)) :
    (if is_upper_cp cp then to_upper (lang_from_index lang (lang_index lang (to_lower cp)))
     else lang_from_index lang (lang_index lang (to_lower cp))) = cp := by
  cases lang <;>
    simp only [lang_index, lang_from_index, ru_index, en_index, to_lower_to_lower] at h ⊢ <;>
    simp only [is_upper_cp, is_ru_upper, is_en_upper, Bool.or_eq_true, Bool.and_eq_true,
      beq_iff_eq, decide_eq_true_eq] <;>
    unfold to_lower at * <;>
    split_ifs at * <;>
    (try omega) <;>
    (try unfold ru_from_index) <;>
    (try unfold en_from_index) <;>
    (try unfold to_upper) <;>
    (try split_ifs) <;> omega

theorem decryptChar_of_neg (cp : Nat) (shift : Int) (lang : Lang)
    (h : lang_index lang (to_lower cp) < 0) : decryptChar cp shift lang = cp := by
  simp only [decryptChar]
  rw [if_pos h]

theorem decryptChar_of_nonneg (cp : Nat) (shift : Int) (lang : Lang)
    (h : 0 ≤ lang_index lang (to_lower cp)) :
    decryptChar cp shift lang =
      (if is_upper_cp cp then
        to_upper (lang_from_index lang
          (((lang_index lang (to_lower cp) - shift).tmod (sizeN lang) + (sizeN lang)).tmod (sizeN lang)))
      else lang_from_index lang
          (((lang_index lang (to_lower cp) - shift).tmod (sizeN lang) + (sizeN lang)).tmod (sizeN lang))) := by
  simp only [decryptChar]
  rw [if_neg (by omega)]

/-- Round trip for a single codepoint: decrypting with shift `k` and then
with shift `(size - k) % size` restores the codepoint. -/
theorem decryptChar_roundtrip (cp : Nat) (lang : Lang) (k : Nat) (hk : k < sizeN lang) :
    decryptChar (decryptChar cp (k : Int) lang) (((sizeN lang - k) % sizeN lang : Nat) : Int) lang
      = cp := by
  have hszpos : 0 < (sizeN lang : Int) := by cases lang <;> simp [sizeN]
  by_cases hidx : lang_index lang (to_lower cp) < 0
  · rw [decryptChar_of_neg cp _ lang hidx, decryptChar_of_neg cp _ lang hidx]
  · push_neg at hidx
    have hidxlt : lang_index lang (to_lower cp) < sizeN lang := lang_index_lt lang (to_lower cp)
    have hk0 : (0 : Int) ≤ (k : Int) := Int.natCast_nonneg k
    have hklt : (k : Int) < sizeN lang := by exact_mod_cast hk
    have hni := shift_index_eq hidx hidxlt hk0 hklt
    set ni := ((lang_index lang (to_lower cp) - (k : Int)).tmod (sizeN lang)
        + (sizeN lang)).tmod (sizeN lang) with hnidef
    have hni0 : 0 ≤ ni := by rw [hni]; split_ifs <;> omega
    have hnilt : ni < sizeN lang := by rw [hni]; split_ifs <;> omega
    rw [decryptChar_of_nonneg cp (k : Int) lang hidx, ← hnidef]
    set c1 := lang_from_index lang ni with hc1
    have hlow : to_lower (if is_upper_cp cp then to_upper c1 else c1) = c1 := by
      by_cases hup : is_upper_cp cp
      · rw [if_pos hup, hc1, to_upper_from_index_to_lower lang ni hni0 hnilt]
      · rw [if_neg hup, hc1, from_index_to_lower lang ni hni0 hnilt]
    have hidx2 : lang_index lang (to_lower (if is_upper_cp cp then to_upper c1 else c1)) = ni := by
      rw [hlow, hc1, from_index_index lang ni hni0 hnilt]
    have hcase : is_upper_cp (if is_upper_cp cp then to_upper c1 else c1) = is_upper_cp cp := by
      by_cases hup : is_upper_cp cp
      · rw [if_pos hup, hup, hc1, to_upper_from_index_upper lang ni hni0 hnilt]
      · rw [if_neg hup, hc1, from_index_not_upper lang ni hni0 hnilt]
        simp only [Bool.not_eq_true] at hup
        rw [hup]
    have hk2cast : (0 : Int) ≤ (((sizeN lang - k) % sizeN lang : Nat) : Int) :=
      Int.natCast_nonneg _
    have hk2lt : (((sizeN lang - k) % sizeN lang : Nat) : Int) < sizeN lang := by
      have h1 : (sizeN lang - k) % sizeN lang < sizeN lang :=
        Nat.mod_lt _ (by cases lang <;> simp [sizeN])
      exact_mod_cast h1
    rw [decryptChar_of_nonneg _ _ lang (by rw [hidx2]; exact hni0)]
    rw [hidx2, hcase]
    have hni2 := shift_index_eq hni0 hnilt hk2cast hk2lt
    have hfinal : ((ni - (((sizeN lang - k) % sizeN lang : Nat) : Int)).tmod (sizeN lang)
        + (sizeN lang)).tmod (sizeN lang) = lang_index lang (to_lower cp) := by
      rw [hni2]
      have hmod : (((sizeN lang - k) % sizeN lang : Nat) : Int) =
          if k = 0 then 0 else (sizeN lang : Int) - k := by
        rcases Nat.eq_zero_or_pos k with h0 | h0
        · subst h0; simp [Nat.mod_self]
        · rw [if_neg (by omega)]
          have hlt : sizeN lang - k < sizeN lang := by omega
          rw [Nat.mod_eq_of_lt hlt]
          push_cast [Nat.cast_sub (le_of_lt hk)]
          ring
      rw [hmod, hni]
      split_ifs at * <;> omega
    rw [hfinal]
    exact reconstruct_spec lang cp hidx

/-- C1: For every text `t`, language `p` in {ru, en}, and shift `k` in
`0..size(p)-1`, decrypting with shift `k` and then decrypting the result with
shift `(size(p) - k) mod size(p)` yields the original text `t`. -/
theorem C1_decrypt_roundtrip (t : List Nat) (p : Lang) (k : Nat) (hk : k < sizeN p) :
    decrypt (decrypt t (k : Int) p) (((sizeN p - k) % sizeN p : Nat) : Int) p = t := by
  unfold decrypt
  rw [List.map_map]
  apply List.map_congr_left ?_ |>.trans (List.map_id t)
  intro cp _
  exact decryptChar_roundtrip cp p k hk

/-- Witness for C1 at a concrete input: the spec's "Khoor zruog" example with
`k = 3` over the English alphabet. -/
theorem C1_decrypt_roundtrip_witness :
    decrypt (decrypt (cpsOf "Khoor zruog") (3 : Int) Lang.en)
        (((sizeN Lang.en - 3) % sizeN Lang.en : Nat) : Int) Lang.en = cpsOf "Khoor zruog" :=
  C1_decrypt_roundtrip (cpsOf "Khoor zruog") Lang.en 3 (by decide)

/-- `RU_FREQ` from the source: NKRYa letter frequencies by alphabet index. -/
def RU_FREQ : List ℚ := [
  0.0801, 0.0159, 0.0454, 0.0170, 0.0298,
  0.0845, 0.0004, 0.0094, 0.0165, 0.0735,
  0.0121, 0.0349, 0.0440, 0.0321, 0.0670,
  0.1097, 0.0281, 0.0473, 0.0547, 0.0626,
  0.0262, 0.0026, 0.0097, 0.0048, 0.0144,
  0.0073, 0.0036, 0.0004, 0.0190, 0.0174,
  0.0032, 0.0064, 0.0201]

/-- `EN_FREQ` from the source: Cornell letter frequencies. -/
def EN_FREQ : List ℚ := [
  0.0817, 0.0129, 0.0278, 0.0425, 0.1270,
  0.0223, 0.0202, 0.0609, 0.0697, 0.0015,
  0.0077, 0.0403, 0.0241, 0.0675, 0.0751,
  0.0193, 0.0010, 0.0599, 0.0633, 0.0906,
  0.0276, 0.0098, 0.0236, 0.0015, 0.0197,
  0.0007]

/-- Reference frequency of the letter with index `i` (`freq[i]` accesses). -/
def freqOf (lang : Lang) (i : Nat) : ℚ :=
  (match lang with | ru => RU_FREQ | en => EN_FREQ).getD i 0

/-- The 78 frequent Russian bigrams from `init_bigrams`. -/
def RU_BIGRAMS : List String := [
  "ст","но","то","на","ен","ни","ко","ра","ов","ро",
  "ос","ал","ер","он","не","ли","по","ре","ор","ан",
  "пр","ет","ол","та","ел","ка","во","ти","ва","од",
  "ат","ле","от","те","ла","ом","де","ес","ве","ло",
  "ог","за","ск","ть","ин","ит","пе","се","об","да",
  "ем","го","ас","из","ие","ри","ил","ед","ар","ам",
  "до","ис","тр","ны","ми","ча","бо","ег","ру",
  "ме","мо","ги","ди","ви","бе","ак","ки","ое"]

/-- The 68 frequent English bigrams from `init_bigrams`. -/
def EN_BIGRAMS : List String := [
  "th","he","in","er","an","re","on","at","en","nd",
  "ti","es","or","te","of","ed","is","it","al","ar",
  "st","to","nt","ng","se","ha","as","ou","io","le",
  "ve","co","me","de","hi","ri","ro","ic","ne","ea",
  "ra","ce","li","ch","ll","be","ma","si","om","ur",
  "ca","el","ta","la","ns","ge","ec","il",
  "pe","ol","no","na","us","di","wa","em","ac","ss"]

/-- `init_bigram` from the source: decode each two-letter bigram to the index
pair used to mark the flat boolean table. -/
def bigramIdxPairs (lang : Lang) : List (Int × Int) :=
  (match lang with | ru => RU_BIGRAMS | en => EN_BIGRAMS).filterMap (fun s =>
    match cpsOf s with
    | [a, b] =>
      let i := lang_index lang a
      let j := lang_index lang b
      if 0 ≤ i ∧ 0 ≤ j then some (i, j) else none
    | _ => none)

/-- Lookup in the bigram table (`table[a * sz + b]` in the source). -/
def bg_table (lang : Lang) (a b : Int) : Bool := (bigramIdxPairs lang).contains (a, b)

/-- Russian / English morphological suffixes from the source, in list order. -/
def RU_SUFFIXES : List String := [
  "ость","ение","ание","ться","ются","ится","ного","ному",
  "ским","ской","ных","ные","ный","ная","ное","ной",
  "ого","ому","ыми","ами","ями","ать","ять","еть","ить",
  "ует","ает","ют","ут","ит","ет",
  "ов","ев","ей","ий","ый","ой","ая","ое","ие",
  "ом","ем","ам","ям","ах","ях","ых","их",
  "ал","ил","ел","ол","ул","ть","ся","сь"]

def EN_SUFFIXES : List String := [
  "tion","ness","ment","able","ible","ious","eous",
  "ing","ous","ful","ive","ity","ent","ant","ion",
  "ism","ist","ory","ary","ery","ure","age","ise","ize",
  "ly","er","ed","es","al","en","ty","or","ic","le","s"]

/-- The suffix list of a language, as codepoint lists. -/
def suffixesOf (lang : Lang) : List (List Nat) :=
  (match lang with | ru => RU_SUFFIXES | en => EN_SUFFIXES).map cpsOf

/-- `min_base` / `min_stem` from the source: 2 for English, 3 otherwise. -/
def min_stem : Lang → Nat
  | en => 2
  | ru => 3

/-- `letter_indices` from the source: alphabet indices of the letters of
`lang`, in order, other codepoints skipped. -/
def letter_indices (cps : List Nat) (lang : Lang) : List Int :=
  cps.filterMap (fun cp =>
    let i := lang_index lang (to_lower cp)
    if 0 ≤ i then some i else none)

/-- `chi_squared` from the source. -/
def chi_squared (idxs : List Int) (lang : Lang) : ℚ :=
  let n := idxs.length
  if n = 0 then 10 ^ 9
  else
    ((List.range (sizeN lang)).map (fun i =>
      let expected : ℚ := freqOf lang i * n
      if 0 < expected then ((idxs.count (i : Int) : ℚ) - expected) ^ 2 / expected else 0)).sum

/-- `bigram_score` from the source: fraction of adjacent index pairs in the
bigram table; 0 when fewer than 4 letters. -/
def bigram_score (idxs : List Int) (lang : Lang) : ℚ :=
  if idxs.length < 4 then 0
  else
    let total := idxs.length - 1
    let hits := ((idxs.zip idxs.tail).countP (fun p => bg_table lang p.1 p.2))
    (hits : ℚ) / (total : ℚ)

/-- `index_of_coincidence` from the source. -/
def index_of_coincidence (idxs : List Int) (lang : Lang) : ℚ :=
  let n := idxs.length
  if n < 2 then 0
  else
    ((List.range (sizeN lang)).map (fun i =>
      ((idxs.count (i : Int) : ℚ)) * ((idxs.count (i : Int) : ℚ) - 1))).sum
      / ((n : ℚ) * ((n : ℚ) - 1))

/-- The word-accumulating loop of `extract_words`: maximal runs of at least
two letters of `lang`, lowercased. -/
def extract_words_go (lang : Lang) : List Nat → List Nat → List (List Nat)
  | [], cur => if 2 ≤ cur.length then [cur] else []
  | cp :: rest, cur =>
    if is_lang lang cp then extract_words_go lang rest (cur ++ [to_lower cp])
    else if 2 ≤ cur.length then cur :: extract_words_go lang rest []
    else extract_words_go lang rest []

/-- `extract_words` from the source. -/
def extract_words (cps : List Nat) (lang : Lang) : List (List Nat) :=
  extract_words_go lang cps []

/-- `str_ends_with` from the source, at codepoint level. -/
def ends_with (s suffix : List Nat) : Bool :=
  decide (suffix.length ≤ s.length) && decide (s.drop (s.length - suffix.length) = suffix)

/-- `normalize_yo` from the source: ё→е and Ё→Е. -/
def normalize_yo (cps : List Nat) : List Nat :=
  cps.map (fun cp => if cp = 0x451 then 0x435 else if cp = 0x401 then 0x415 else cp)

/-- The suffix loop of `stem_word`: strip the first listed suffix such that
the word is longer than the suffix length plus the minimum base length. -/
def stem_word_go (word : List Nat) (lang : Lang) : List (List Nat) → List Nat
  | [] => word
  | suf :: rest =>
    if word.length > suf.length + min_stem lang ∧ ends_with word suf then
      word.take (word.length - suf.length)
    else stem_word_go word lang rest

/-- `stem_word` from the source. -/
def stem_word (word : List Nat) (lang : Lang) : List Nat :=
  stem_word_go word lang (suffixesOf lang)

/-- `DictScoreResult` from the source (`matchCount` models the `matches` field,
which is not a legal Lean field name). -/
structure DictScoreResult where
  score : ℚ
  matchCount : Nat
  total : Nat
deriving DecidableEq, Repr, Inhabited

/-- The per-word body of the `dict_score` loop, updating the accumulator
`(matches, match_w, total_w)` through the four match levels. -/
def dictStep (dict : List (List Nat)) (lang : Lang) (acc : Nat × ℚ × ℚ) (word : List Nat) :
    Nat × ℚ × ℚ :=
  let wlen : ℚ := word.length
  let total_w := acc.2.2 + wlen
  if dict.contains word then (acc.1 + 1, acc.2.1 + wlen, total_w)
  else
    let no_yo := if lang = ru then normalize_yo word else word
    if lang = ru ∧ no_yo ≠ word ∧ dict.contains no_yo then
      (acc.1 + 1, acc.2.1 + wlen, total_w)
    else
      let st := stem_word word lang
      if st ≠ word ∧ dict.contains st then (acc.1 + 1, acc.2.1 + wlen * 0.8, total_w)
      else if lang = ru then
        let st2 := stem_word no_yo lang
        if st2 ≠ no_yo ∧ dict.contains st2 then (acc.1 + 1, acc.2.1 + wlen * 0.7, total_w)
        else (acc.1, acc.2.1, total_w)
      else (acc.1, acc.2.1, total_w)

/-- `dict_score` from the source: four-level dictionary lookup with
length-weighted accumulation. -/
def dict_score (words : List (List Nat)) (dict : List (List Nat)) (lang : Lang) :
    DictScoreResult :=
  if words.isEmpty then ⟨0, 0, 0⟩
  else
    let acc := words.foldl (dictStep dict lang) (0, 0, 0)
    let r : ℚ := (acc.1 : ℚ) / (words.length : ℚ)
    let weighted : ℚ := if 0 < acc.2.2 then acc.2.1 / acc.2.2 else 0
    ⟨r * 0.5 + weighted * 0.5, acc.1, words.length⟩

/-- The truncation loop of `stem_dict_score`: drop trailing codepoints while
the candidate is at least `min_stem` long, testing membership each time. -/
def truncHit (dict : List (List Nat)) (lang : Lang) (cps : List Nat) : Bool :=
  if min_stem lang ≤ cps.length then
    dict.contains cps || truncHit dict lang cps.dropLast
  else false
termination_by cps.length
decreasing_by
  cases lang <;> simp_all [min_stem, List.length_dropLast] <;> omega

/-- `stem_dict_score` from the source. -/
def stem_dict_score (words : List (List Nat)) (dict : List (List Nat)) (lang : Lang) : ℚ :=
  if words.isEmpty then 0
  else
    let hits := words.countP (fun word =>
      let w := if lang = ru then normalize_yo word else word
      truncHit dict lang (stem_word w lang))
    (hits : ℚ) / (words.length : ℚ)

/-- `detect_language` from the source: Russian wins strict majorities,
English wins ties. -/
def detect_language (cps : List Nat) : Lang :=
  if cps.countP is_ru > cps.countP is_en then ru else en

/-- `letter_count` from the source. -/
def letter_count (cps : List Nat) (lang : Lang) : Nat :=
  cps.countP (is_lang lang)

/-- `combine_scores` from the source: length-adaptive weighted combination. -/
def combine_scores (chi bg ds ss : ℚ) (n_letters : Nat) : ℚ :=
  let chi_norm := max 0 (1 - chi / 500)
  if 100 ≤ n_letters then 0.35 * chi_norm + 0.10 * bg + 0.35 * ds + 0.20 * ss
  else if 30 ≤ n_letters then 0.20 * chi_norm + 0.20 * bg + 0.35 * ds + 0.25 * ss
  else if 10 ≤ n_letters then 0.10 * chi_norm + 0.30 * bg + 0.35 * ds + 0.25 * ss
  else 0.05 * chi_norm + 0.45 * bg + 0.30 * ds + 0.20 * ss

/-- `ShiftResult` from the source (`matchCount` models the `matches` field). -/
structure ShiftResult where
  shift : Nat
  text : List Nat
  chi_sq : ℚ
  bigram_sc : ℚ
  dict_sc : ℚ
  stem_sc : ℚ
  combined : ℚ
  matchCount : Nat
  total_words : Nat
deriving DecidableEq, Repr, Inhabited

/-- `analyze_shift` from the source; the dictionary for `lang` is passed in
place of the global lazy dictionary. -/
def analyze_shift (cps : List Nat) (shift : Nat) (lang : Lang) (dict : List (List Nat)) :
    ShiftResult :=
  let dec := decrypt cps (shift : Int) lang
  let idxs := letter_indices dec lang
  let words := extract_words dec lang
  let chi := chi_squared idxs lang
  let bg := bigram_score idxs lang
  let dr := dict_score words dict lang
  let ss := stem_dict_score words dict lang
  let lc := letter_count dec lang
  ⟨shift, dec, chi, bg, dr.score, ss, combine_scores chi bg dr.score ss lc, dr.matchCount, dr.total⟩

/-- `crack` from the source: evaluate every shift and sort by descending
combined score (`std::sort` modelled by `mergeSort`). -/
def crack (cps : List Nat) (lang : Lang) (dict : List (List Nat)) : List ShiftResult :=
  ((List.range (sizeN lang)).map (fun s => analyze_shift cps s lang dict)).mergeSort
    (fun a b => decide (b.combined ≤ a.combined))

/-- The IC threshold used by `is_plaintext`. -/
def ic_thresh : Lang → ℚ
  | ru => 0.045
  | en => 0.055

/-- `is_plaintext` from the source; `dicts` supplies the per-language word
sets of the global dictionary. -/
def is_plaintext (cps : List Nat) (dicts : Lang → List (List Nat)) : Bool :=
  let lang := detect_language cps
  let words := extract_words cps lang
  let dr := dict_score words (dicts lang) lang
  if 0 < dr.total ∧ (7 : ℚ)/10 ≤ (dr.matchCount : ℚ) / (dr.total : ℚ) then true
  else
    let idxs := letter_indices cps lang
    if 30 ≤ idxs.length then
      decide (ic_thresh lang < index_of_coincidence idxs lang ∧ (2 : ℚ)/5 < dr.score)
    else false

/-- The total count reported by `dict_score` is always the word count. -/
theorem dict_score_total (words dict : List (List Nat)) (lang : Lang) :
    (dict_score words dict lang).total = words.length := by
  unfold dict_score
  split_ifs with h
  · simp [List.isEmpty_iff] at h
    simp [h]
  · rfl

/-- C3: the Plaintext Detector returns true iff the dictionary match ratio is
at least 0.7, or the text has at least 30 letters of the detected language
and the index of coincidence exceeds the language threshold while the
dictionary score exceeds 0.4; in every other case it returns false. -/
theorem C3_is_plaintext_spec (cps : List Nat) (dicts : Lang → List (List Nat)) :
    is_plaintext cps dicts = true ↔
      ((7 : ℚ)/10 ≤
          ((dict_score (extract_words cps (detect_language cps))
              (dicts (detect_language cps)) (detect_language cps)).matchCount : ℚ) /
            ((dict_score (extract_words cps (detect_language cps))
              (dicts (detect_language cps)) (detect_language cps)).total : ℚ) ∨
        (30 ≤ (letter_indices cps (detect_language cps)).length ∧
          ic_thresh (detect_language cps) <
            index_of_coincidence (letter_indices cps (detect_language cps))
              (detect_language cps) ∧
          (2 : ℚ)/5 <
            (dict_score (extract_words cps (detect_language cps))
              (dicts (detect_language cps)) (detect_language cps)).score)) := by
  set lang := detect_language cps with hlang
  set dr := dict_score (extract_words cps lang) (dicts lang) lang with hdr
  have hratio0 : dr.total = 0 → ((dr.matchCount : ℚ) / (dr.total : ℚ)) = 0 := by
    intro h
    rw [h]
    simp
  simp only [is_plaintext]
  rw [← hlang, ← hdr]
  split_ifs with h1 h2
  · simp only [true_iff]
    left
    exact h1.2
  · rw [decide_eq_true_iff]
    constructor
    · intro h
      right
      exact ⟨h2, h.1, h.2⟩
    · rintro (hr | ⟨h30, hic, hds⟩)
      · exfalso
        rcases Nat.eq_zero_or_pos dr.total with h0 | h0
        · rw [hratio0 h0] at hr
          norm_num at hr
        · exact h1 ⟨h0, hr⟩
      · exact ⟨hic, hds⟩
  · simp only [false_iff]
    rintro (hr | ⟨h30, hic, hds⟩)
    · rcases Nat.eq_zero_or_pos dr.total with h0 | h0
      · rw [hratio0 h0] at hr
        norm_num at hr
      · exact h1 ⟨h0, hr⟩
    · exact h2 h30

/-- Claim-side (spec-worded) predicate: the word is matched at one of the
four lookup levels (exact, ё-normalized, suffix-stripped, normalized plus
suffix-stripped). -/
def word_matched (dict : List (List Nat)) (lang : Lang) (w : List Nat) : Bool :=
  dict.contains w
    || (decide (lang = ru) && dict.contains (normalize_yo w))
    || dict.contains (stem_word w lang)
    || (decide (lang = ru) && dict.contains (stem_word (normalize_yo w) lang))

/-- Claim-side (spec-worded) weight of a word: full letter-length weight for
an exact or normalized match, 0.8 times it for a match found only after
suffix-stripping, 0.7 times it for normalization plus suffix-stripping. -/
def word_match_weight (dict : List (List Nat)) (lang : Lang) (w : List Nat) : ℚ :=
  if dict.contains w ∨ (lang = ru ∧ dict.contains (normalize_yo w)) then (w.length : ℚ)
  else if dict.contains (stem_word w lang) then (w.length : ℚ) * 0.8
  else if lang = ru ∧ dict.contains (stem_word (normalize_yo w) lang) then (w.length : ℚ) * 0.7
  else 0

/-- One step of the `dict_score` loop acts exactly as the spec-worded
per-word classification. -/
theorem dictStep_eq (dict : List (List Nat)) (lang : Lang) (acc : Nat × ℚ × ℚ)
    (word : List Nat) :
    dictStep dict lang acc word =
      (acc.1 + (if word_matched dict lang word then 1 else 0),
       acc.2.1 + word_match_weight dict lang word,
       acc.2.2 + (word.length : ℚ)) := by
  cases lang
  case ru =>
    by_cases h1 : word ∈ dict
    · simp [dictStep, word_matched, word_match_weight, h1]
    · by_cases hyo : normalize_yo word = word
      · by_cases h3 : stem_word word ru ∈ dict
        · have hst3 : stem_word word ru ≠ word := by
            intro he
            rw [he] at h3
            exact h1 h3
          simp [dictStep, word_matched, word_match_weight, h1, h3, hyo, hst3]
        · simp [dictStep, word_matched, word_match_weight, h1, h3, hyo]
      · by_cases h2 : normalize_yo word ∈ dict
        · simp [dictStep, word_matched, word_match_weight, h1, h2, hyo]
        · by_cases h3 : stem_word word ru ∈ dict
          · have hst3 : stem_word word ru ≠ word := by
              intro he
              rw [he] at h3
              exact h1 h3
            simp [dictStep, word_matched, word_match_weight, h1, h2, h3, hyo, hst3]
          · by_cases h4 : stem_word (normalize_yo word) ru ∈ dict
            · have hst : stem_word (normalize_yo word) ru ≠ normalize_yo word := by
                intro he
                rw [he] at h4
                exact h2 h4
              simp [dictStep, word_matched, word_match_weight, h1, h2, h3, h4, hyo, hst]
            · simp [dictStep, word_matched, word_match_weight, h1, h2, h3, h4, hyo]
  case en =>
    by_cases h1 : word ∈ dict
    · simp [dictStep, word_matched, word_match_weight, h1]
    · by_cases h3 : stem_word word en ∈ dict
      · have hst3 : stem_word word en ≠ word := by
          intro he
          rw [he] at h3
          exact h1 h3
        simp [dictStep, word_matched, word_match_weight, h1, h3, hst3]
      · simp [dictStep, word_matched, word_match_weight, h1, h3]

/-- The `dict_score` fold accumulates the per-word count, weight and length. -/
theorem dict_fold (dict : List (List Nat)) (lang : Lang) (words : List (List Nat)) :
    ∀ acc : Nat × ℚ × ℚ,
      words.foldl (dictStep dict lang) acc =
        (acc.1 + words.countP (word_matched dict lang),
         acc.2.1 + (words.map (word_match_weight dict lang)).sum,
         acc.2.2 + (words.map (fun w => (w.length : ℚ))).sum) := by
  induction words with
  | nil => intro acc; simp
  | cons w rest ih =>
    intro acc
    rw [List.foldl_cons, dictStep_eq, ih]
    simp only [List.countP_cons, List.map_cons, List.sum_cons]
    refine Prod.ext ?_ (Prod.ext ?_ ?_) <;> simp only
    · by_cases h : word_matched dict lang w = true <;> simp [h] <;> omega
    · ring
    · ring

theorem word_match_weight_zero_of_nil (dict : List (List Nat)) (lang : Lang)
    (w : List Nat) (h : w.length = 0) : word_match_weight dict lang w = 0 := by
  unfold word_match_weight
  split_ifs <;> simp [h]

theorem len_sum_zero_all_zero :
    ∀ l : List (List Nat), (l.map (fun w => (w.length : ℚ))).sum = 0 →
      ∀ w ∈ l, w.length = 0 := by
  intro l
  induction l with
  | nil => intro _ w hw; cases hw
  | cons x rest ih =>
    intro hsum w hw
    rw [List.map_cons, List.sum_cons] at hsum
    have hx : (0 : ℚ) ≤ (x.length : ℚ) := by positivity
    have hrest : (0 : ℚ) ≤ (rest.map (fun w => (w.length : ℚ))).sum := by
      apply List.sum_nonneg
      intro y hy
      obtain ⟨w', _, rfl⟩ := List.mem_map.mp hy
      positivity
    have hx0 : (x.length : ℚ) = 0 := by linarith
    have hr0 : (rest.map (fun w => (w.length : ℚ))).sum = 0 := by linarith
    rcases List.mem_cons.mp hw with rfl | hw
    · exact_mod_cast hx0
    · exact ih hr0 w hw

/-- C4 (as claimed): for nonempty word lists the dictionary score is half the
matched-word ratio plus half the weighted-match ratio over total letter
length, with weights full / 0.8 / 0.7 by match level. -/
theorem C4_dict_score_spec (words dict : List (List Nat)) (lang : Lang) (h : words ≠ []) :
    dict_score words dict lang =
      ⟨((words.countP (word_matched dict lang) : ℚ) / (words.length : ℚ)) * (1/2)
        + ((words.map (word_match_weight dict lang)).sum
            / (words.map (fun w => (w.length : ℚ))).sum) * (1/2),
        words.countP (word_matched dict lang), words.length⟩ := by
  unfold dict_score
  rw [if_neg (by simpa [List.isEmpty_iff] using h)]
  rw [dict_fold]
  simp only [Nat.zero_add, zero_add]
  have hlen0 : (0 : ℚ) ≤ (words.map (fun w => (w.length : ℚ))).sum := by
    apply List.sum_nonneg
    intro x hx
    obtain ⟨w, _, rfl⟩ := List.mem_map.mp hx
    positivity
  rcases eq_or_lt_of_le hlen0 with hz | hpos
  · rw [if_neg (by rw [← hz]; exact lt_irrefl 0)]
    have hwz : (words.map (word_match_weight dict lang)).sum = 0 := by
      apply List.sum_eq_zero
      intro x hx
      obtain ⟨w, hw, rfl⟩ := List.mem_map.mp hx
      exact word_match_weight_zero_of_nil dict lang w
        (len_sum_zero_all_zero words hz.symm w hw)
    rw [hwz, ← hz]
    norm_num
  · rw [if_pos hpos]
    norm_num

/-- Witness for C4: a single word exactly present in the dictionary scores
a full match. -/
theorem C4_dict_score_spec_witness :
    dict_score [cpsOf "cat"] [cpsOf "cat"] Lang.en = ⟨1, 1, 1⟩ := by
  rw [C4_dict_score_spec [cpsOf "cat"] [cpsOf "cat"] Lang.en (by decide)]
  have hm : List.countP (word_matched [cpsOf "cat"] Lang.en) [cpsOf "cat"] = 1 := by decide
  have hwt : word_match_weight [cpsOf "cat"] Lang.en (cpsOf "cat") = ((cpsOf "cat").length : ℚ) := by
    unfold word_match_weight
    rw [if_pos (Or.inl (by decide))]
  have hl : (cpsOf "cat").length = 3 := by decide
  simp only [hm, List.map_cons, List.map_nil, List.sum_cons, List.sum_nil, hwt, hl,
    List.length_cons, List.length_nil]
  norm_num
theorem ends_with_length {w s : List Nat} (h : ends_with w s = true) : s.length ≤ w.length := by
  unfold ends_with at h
  simp only [Bool.and_eq_true, decide_eq_true_eq] at h
  exact h.1

/-- The suffix loop of `stem_word` agrees with a first-qualifying-suffix
search, where a suffix qualifies when it matches the ending and leaves a base
of strictly more than `min_stem` codepoints. -/
theorem stem_word_go_eq (w : List Nat) (lang : Lang) :
    ∀ sufs : List (List Nat),
      stem_word_go w lang sufs =
        (match sufs.find? (fun s => ends_with w s && decide (min_stem lang < w.length - s.length)) with
         | some s => w.take (w.length - s.length)
         | none => w) := by
  intro sufs
  induction sufs with
  | nil => rfl
  | cons s rest ih =>
    rw [stem_word_go, List.find?]
    by_cases hc : (ends_with w s && decide (min_stem lang < w.length - s.length)) = true
    · have hew : ends_with w s = true := by
        simp only [Bool.and_eq_true] at hc
        exact hc.1
      have hlen : min_stem lang < w.length - s.length := by
        simp only [Bool.and_eq_true, decide_eq_true_eq] at hc
        exact hc.2
      have hsl : s.length ≤ w.length := ends_with_length hew
      rw [if_pos ⟨by omega, hew⟩, hc]
    · have hcf : (ends_with w s && decide (min_stem lang < w.length - s.length)) = false := by
        simpa using hc
      rw [hcf]
      rw [if_neg ?_]
      · exact ih
      · rintro ⟨hgt, hew⟩
        apply hc
        simp only [Bool.and_eq_true, decide_eq_true_eq]
        exact ⟨hew, by omega⟩

/-- C6 counterexample: the English suffix "ed" matches the ending of "abed"
and its removal leaves the base "ab" of exactly `minStemLength = 2`
characters, yet `stem_word` returns the word unchanged (nothing is
stripped), contradicting the claim that such a suffix is stripped. -/
theorem C6_counterexample :
    (cpsOf "ed") ∈ suffixesOf Lang.en ∧
    ends_with (cpsOf "abed") (cpsOf "ed") = true ∧
    (cpsOf "abed").length - (cpsOf "ed").length = min_stem Lang.en ∧
    stem_word (cpsOf "abed") Lang.en = cpsOf "abed" := by decide

/-- C6 (amended): the stemmer iterates the suffix list in its fixed order and
strips the first suffix that both matches the word ending and leaves a base
of strictly more than `minStemLength` characters; a suffix leaving a base of
exactly `minStemLength` characters does not qualify, and if no suffix
qualifies the word is returned unchanged. -/
theorem C6_stem_word_amended (w : List Nat) (lang : Lang) :
    stem_word w lang =
      (match (suffixesOf lang).find?
          (fun s => ends_with w s && decide (min_stem lang < w.length - s.length)) with
       | some s => w.take (w.length - s.length)
       | none => w) :=
  stem_word_go_eq w lang (suffixesOf lang)

theorem index_nonneg_is_lang (lang : Lang) (cp : Nat)
    (h : 0 ≤ lang_index lang (to_lower cp)) : is_lang lang cp = true := by
  cases lang <;>
    simp only [lang_index, ru_index, en_index, to_lower_to_lower] at h <;>
    simp only [is_lang, is_ru, is_en, is_ru_lower, is_ru_upper, is_en_lower, is_en_upper,
      Bool.or_eq_true, Bool.and_eq_true, beq_iff_eq, decide_eq_true_eq] <;>
    unfold to_lower at h <;>
    split_ifs at h <;> omega

/-- Range of the shifted index `((x).tmod sz + sz).tmod sz` for positive `sz`. -/
theorem tmod_shift_mem (a sz : Int) (hsz : 0 < sz) :
    0 ≤ (a.tmod sz + sz).tmod sz ∧ (a.tmod sz + sz).tmod sz < sz := by
  rcases le_or_lt 0 a with ha | ha
  · have ht0 : 0 ≤ a.tmod sz := Int.tmod_nonneg sz ha
    have ht1 : a.tmod sz < sz := Int.tmod_lt_of_pos a hsz
    rw [Int.tmod_eq_emod (by omega) (by omega)]
    exact ⟨Int.emod_nonneg _ (by omega), Int.emod_lt_of_pos _ hsz⟩
  · obtain ⟨m, rfl⟩ := Int.eq_negSucc_of_lt_zero ha
    obtain ⟨n, rfl⟩ := Int.eq_ofNat_of_zero_le hsz.le
    have hneg : (Int.negSucc m).tmod ((n : Nat) : Int) = -(((m+1) % n : Nat) : Int) := rfl
    rw [hneg]
    have hn : 0 < n := by exact_mod_cast hsz
    have hlt : (m+1) % n < n := Nat.mod_lt _ hn
    rcases Nat.eq_zero_or_pos ((m+1) % n) with h0 | h0
    · have hz : (-(((m+1) % n : Nat) : Int) + (n : Int)) = (n : Int) := by
        rw [h0]
        simp
      rw [hz, Int.tmod_self]
      exact ⟨le_refl 0, hsz⟩
    · have hb : (0:Int) ≤ -(((m+1) % n : Nat) : Int) + (n : Int) := by omega
      have hb2 : -(((m+1) % n : Nat) : Int) + (n : Int) < (n : Int) := by omega
      rw [Int.tmod_eq_of_lt hb hb2]
      exact ⟨hb, hb2⟩

/-- Decryption maps letters of the language to letters of the language and
leaves everything else unchanged, so the per-language letter count is
invariant. -/
theorem is_lang_decryptChar (cp : Nat) (shift : Int) (lang : Lang) :
    is_lang lang (decryptChar cp shift lang) = is_lang lang cp := by
  by_cases hidx : lang_index lang (to_lower cp) < 0
  · rw [decryptChar_of_neg cp shift lang hidx]
  · push_neg at hidx
    rw [decryptChar_of_nonneg cp shift lang hidx]
    have hszpos : 0 < (sizeN lang : Int) := by cases lang <;> simp [sizeN]
    obtain ⟨hni0, hni1⟩ :=
      tmod_shift_mem (lang_index lang (to_lower cp) - shift) (sizeN lang) hszpos
    rw [index_nonneg_is_lang lang cp hidx]
    by_cases hup : is_upper_cp cp
    · rw [if_pos hup, to_upper_from_index_is_lang lang _ hni0 hni1]
    · rw [if_neg hup, from_index_is_lang lang _ hni0 hni1]

/-- `letter_count` is invariant under `decrypt`. -/
theorem letter_count_decrypt (cps : List Nat) (shift : Int) (lang : Lang) :
    letter_count (decrypt cps shift lang) lang = letter_count cps lang := by
  unfold letter_count decrypt
  rw [List.countP_map]
  apply List.countP_congr
  intro cp _
  simp only [Function.comp_apply]
  rw [is_lang_decryptChar]

/-- Claim-side weight for the frequency metric by letter-count band. -/
def w_freq (n : Nat) : ℚ :=
  if 100 ≤ n then 0.35 else if 30 ≤ n then 0.20 else if 10 ≤ n then 0.10 else 0.05

/-- Claim-side weight for the bigram metric by letter-count band. -/
def w_bg (n : Nat) : ℚ :=
  if 100 ≤ n then 0.10 else if 30 ≤ n then 0.20 else if 10 ≤ n then 0.30 else 0.45

/-- Claim-side weight for the dictionary metric by letter-count band. -/
def w_dict (n : Nat) : ℚ :=
  if 100 ≤ n then 0.35 else if 30 ≤ n then 0.35 else if 10 ≤ n then 0.35 else 0.30

/-- Claim-side weight for the stem metric by letter-count band. -/
def w_stem (n : Nat) : ℚ :=
  if 100 ≤ n then 0.20 else if 30 ≤ n then 0.25 else if 10 ≤ n then 0.25 else 0.20

/-- C5: the combined confidence of a decrypted candidate is the weighted sum
of the four normalized metrics, with chi-squared normalized as
`max 0 (1 - chi/500)` and the weight quadruple selected by the letter count
of the original ciphertext. -/
theorem C5_combined_spec (cps : List Nat) (shift : Nat) (lang : Lang)
    (dict : List (List Nat)) :
    (analyze_shift cps shift lang dict).combined =
      w_freq (letter_count cps lang)
          * max 0 (1 - (analyze_shift cps shift lang dict).chi_sq / 500)
        + w_bg (letter_count cps lang) * (analyze_shift cps shift lang dict).bigram_sc
        + w_dict (letter_count cps lang) * (analyze_shift cps shift lang dict).dict_sc
        + w_stem (letter_count cps lang) * (analyze_shift cps shift lang dict).stem_sc := by
  simp only [analyze_shift]
  rw [letter_count_decrypt]
  unfold combine_scores w_freq w_bg w_dict w_stem
  split_ifs <;> ring

/-- `crack` is a permutation of the per-shift analysis results. -/
theorem crack_perm (cps : List Nat) (lang : Lang) (dict : List (List Nat)) :
    (crack cps lang dict).Perm
      ((List.range (sizeN lang)).map (fun s => analyze_shift cps s lang dict)) :=
  List.mergeSort_perm _ _

theorem crack_length (cps : List Nat) (lang : Lang) (dict : List (List Nat)) :
    (crack cps lang dict).length = sizeN lang := by
  rw [(crack_perm cps lang dict).length_eq, List.length_map, List.length_range]

theorem crack_ne_nil (cps : List Nat) (lang : Lang) (dict : List (List Nat)) :
    crack cps lang dict ≠ [] := by
  intro he
  have h := crack_length cps lang dict
  rw [he] at h
  cases lang <;> simp [sizeN] at h

/-- C2: for every input text and language, `crack` returns exactly `size`
results whose shifts are `0..size-1` in some order, sorted so that the
combined score is non-increasing down the list; in particular the list is
never empty. -/
theorem C2_crack_spec (cps : List Nat) (lang : Lang) (dict : List (List Nat)) :
    (crack cps lang dict).length = sizeN lang ∧
    ((crack cps lang dict).map (fun r => r.shift)).Perm (List.range (sizeN lang)) ∧
    (crack cps lang dict).Pairwise (fun a b => b.combined ≤ a.combined) ∧
    crack cps lang dict ≠ [] := by
  refine ⟨crack_length cps lang dict, ?_, ?_, crack_ne_nil cps lang dict⟩
  · have hp := (crack_perm cps lang dict).map (fun r => r.shift)
    rw [List.map_map] at hp
    have hid : ((fun r => ShiftResult.shift r) ∘ fun s => analyze_shift cps s lang dict) =
        fun s => s := by
      funext s
      rfl
    rw [hid] at hp
    simpa using hp
  · have hs := @List.sorted_mergeSort ShiftResult
      (fun a b : ShiftResult => decide (b.combined ≤ a.combined))
      (fun a b c hab hbc => by
        simp only [decide_eq_true_eq] at *
        exact le_trans hbc hab)
      (fun a b => by
        simp only [Bool.or_eq_true, decide_eq_true_eq]
        exact le_total b.combined a.combined)
      ((List.range (sizeN lang)).map (fun s => analyze_shift cps s lang dict))
    exact hs.imp (fun h => by simpa using h)

/-- `LangSegment` from the source: a span with its detected language. -/
structure LangSegment where
  text : List Nat
  lang : Lang
  start : Nat
  stop : Nat
deriving DecidableEq, Repr, Inhabited

/-- Language classification of one codepoint in `split_by_language`:
`some ru` / `some en` for alphabetic codepoints, `none` for neutral ones. -/
def classify (c : Nat) : Option Lang :=
  if is_ru c then some Lang.ru else if is_en c then some Lang.en else none

/-- Whitespace test of the backward boundary search (` `, `\n`, `\t`). -/
def isSpaceCp (c : Nat) : Bool := c == 32 || c == 10 || c == 9

/-- The backward whitespace search of `split_by_language`: scan `j` downward
while `j ≥ lo`, returning the first (largest) whitespace position found. -/
def findSpaceBack (cps : List Nat) (lo : Nat) : Nat → Option Nat
  | 0 => if 0 < lo then none else if isSpaceCp (cps.getD 0 0) then some 0 else none
  | j + 1 =>
    if j + 1 < lo then none
    else if isSpaceCp (cps.getD (j + 1) 0) then some (j + 1)
    else findSpaceBack cps lo j

/-- The boundary chosen at a language transition at index `i`: just after the
nearest whitespace within 10 codepoints (not before `cur_start`), else `i`. -/
def splitPoint (cps : List Nat) (i cur_start : Nat) : Nat :=
  match findSpaceBack cps (max (i - 10) cur_start) (i - 1) with
  | some j => j + 1
  | none => i

/-- The scanning loop of `split_by_language` over codepoint indices; the
first argument counts the remaining iterations (`cps.length - i`), making the
loop a structural recursion. -/
def splitGo (cps : List Nat) : Nat → Nat → Option Lang → Nat → List LangSegment →
    List LangSegment
  | 0, _, curLang, curStart, acc =>
    match curLang with
    | some l =>
      if curStart < cps.length then
        acc ++ [⟨cps.drop curStart, l, curStart, cps.length⟩]
      else acc
    | none => acc
  | fuel + 1, i, curLang, curStart, acc =>
    match classify (cps.getD i 0) with
    | none => splitGo cps fuel (i + 1) curLang curStart acc
    | some det =>
      match curLang with
      | none => splitGo cps fuel (i + 1) (some det) curStart acc
      | some l =>
        if det = l then splitGo cps fuel (i + 1) (some l) curStart acc
        else
          let sa := splitPoint cps i curStart
          let acc' := if curStart < sa then
              acc ++ [⟨(cps.drop curStart).take (sa - curStart), l, curStart, sa⟩]
            else acc
          splitGo cps fuel (i + 1) (some det) sa acc'

/-- `split_by_language` from the source, on codepoint lists: empty text gives
no segments; otherwise the scan runs and, if it produced nothing, a fallback
whole-text segment tagged "ru" is returned. -/
def split_by_language (cps : List Nat) : List LangSegment :=
  if cps.isEmpty then []
  else
    let segments := splitGo cps cps.length 0 none 0 []
    if segments.isEmpty then [⟨cps, Lang.ru, 0, cps.length⟩] else segments

/-- When no remaining codepoint is alphabetic, the scan loop never starts a
segment and returns the accumulator as is when the language is unset. -/
theorem splitGo_no_alpha (cps : List Nat)
    (H : ∀ j, j < cps.length → classify (cps.getD j 0) = none) :
    ∀ fuel i, cps.length ≤ fuel + i → splitGo cps fuel i none 0 [] = [] := by
  intro fuel
  induction fuel with
  | zero => intro i _; rfl
  | succ n ih =>
    intro i hle
    by_cases h : i < cps.length
    · simp only [splitGo, H i h]
      exact ih (i + 1) (by omega)
    · have hcl : classify (cps.getD i 0) = none := by
        rw [List.getD_eq_getElem?_getD, List.getElem?_eq_none (by omega)]
        rfl
      simp only [splitGo, hcl]
      exact ih (i + 1) (by omega)

/-- C8 counterexample: the nonempty text "123" contains no Russian or English
alphabetic codepoint, yet the Language Splitter returns a (fallback) segment
list that is not empty, contradicting the claimed empty result. -/
theorem C8_counterexample :
    ((cpsOf "123").all (fun c => classify c = none)) ∧
      split_by_language (cpsOf "123") ≠ [] := by decide

/-- The scan loop when every alphabetic codepoint classifies to `l0`. -/
theorem splitGo_single (cps : List Nat) (l0 : Lang)
    (H : ∀ j, j < cps.length → ∀ l, classify (cps.getD j 0) = some l → l = l0)
    (hn : 0 < cps.length) :
    ∀ fuel i, cps.length = fuel + i →
      (splitGo cps fuel i (some l0) 0 [] = [⟨cps, l0, 0, cps.length⟩]) ∧
      ((∃ j, i ≤ j ∧ j < cps.length ∧ classify (cps.getD j 0) ≠ none) →
        splitGo cps fuel i none 0 [] = [⟨cps, l0, 0, cps.length⟩]) := by
  intro fuel
  induction fuel with
  | zero =>
    intro i hi
    constructor
    · rw [splitGo]
      simp only [if_pos hn, List.nil_append, List.drop_zero]
    · rintro ⟨j, hj1, hj2, _⟩
      omega
  | succ n ih =>
    intro i hi
    have hlt : i < cps.length := by omega
    constructor
    · cases hcl : classify (cps.getD i 0) with
      | none =>
        simp only [splitGo, hcl]
        exact (ih (i + 1) (by omega)).1
      | some det =>
        have hdet : det = l0 := H i hlt det hcl
        subst hdet
        simp only [splitGo, hcl, if_pos rfl]
        exact (ih (i + 1) (by omega)).1
    · rintro ⟨j, hj1, hj2, hj3⟩
      cases hcl : classify (cps.getD i 0) with
      | none =>
        simp only [splitGo, hcl]
        apply (ih (i + 1) (by omega)).2
        rcases Nat.eq_or_lt_of_le hj1 with rfl | hj1'
        · exact absurd hcl hj3
        · exact ⟨j, hj1', hj2, hj3⟩
      | some det =>
        have hdet : det = l0 := H i hlt det hcl
        subst hdet
        simp only [splitGo, hcl]
        exact (ih (i + 1) (by omega)).1

/-- C8 (amended): the empty text yields no segments; a nonempty text with no
alphabetic codepoint yields exactly one fallback segment tagged "ru"
covering the whole text; and a text whose alphabetic codepoints all belong
to one language yields exactly one segment covering the whole text. -/
theorem C8_split_degenerate_amended (cps : List Nat) :
    (cps = [] → split_by_language cps = []) ∧
    (cps ≠ [] → (∀ c ∈ cps, classify c = none) →
      split_by_language cps = [⟨cps, Lang.ru, 0, cps.length⟩]) ∧
    (∀ l0 : Lang, (∃ c ∈ cps, classify c ≠ none) →
      (∀ c ∈ cps, ∀ l, classify c = some l → l = l0) →
      split_by_language cps = [⟨cps, l0, 0, cps.length⟩]) := by
  refine ⟨?_, ?_, ?_⟩
  · rintro rfl
    rfl
  · intro hne hall
    have hn : ¬cps.isEmpty := by simpa [List.isEmpty_iff] using hne
    unfold split_by_language
    rw [if_neg hn]
    have hgo : splitGo cps cps.length 0 none 0 [] = [] := by
      apply splitGo_no_alpha cps ?_ cps.length 0 (by omega)
      intro j hj
      have hmem : cps.getD j 0 ∈ cps := by
        rw [List.getD_eq_getElem?_getD, List.getElem?_eq_getElem hj]
        exact List.getElem_mem hj
      exact hall _ hmem
    rw [hgo]
    rfl
  · intro l0 hex hall
    have hne : cps ≠ [] := by
      rintro rfl
      obtain ⟨c, hc, _⟩ := hex
      cases hc
    have hn : ¬cps.isEmpty := by simpa [List.isEmpty_iff] using hne
    have hlen : 0 < cps.length := List.length_pos.mpr hne
    unfold split_by_language
    rw [if_neg hn]
    have H : ∀ j, j < cps.length → ∀ l, classify (cps.getD j 0) = some l → l = l0 := by
      intro j hj l hl
      have hmem : cps.getD j 0 ∈ cps := by
        rw [List.getD_eq_getElem?_getD, List.getElem?_eq_getElem hj]
        exact List.getElem_mem hj
      exact hall _ hmem l hl
    obtain ⟨c, hc, hcl⟩ := hex
    obtain ⟨j, hj, rfl⟩ := List.mem_iff_getElem.mp hc
    have hgo := (splitGo_single cps l0 H hlen cps.length 0 (by omega)).2
      ⟨j, Nat.zero_le j, hj, by
        rw [List.getD_eq_getElem?_getD, List.getElem?_eq_getElem hj]
        exact hcl⟩
    rw [hgo]
    rfl

/-- A list of language segments forms a contiguous chain over `cps` from
offset `a` to offset `b`: each segment starts where the previous one ends
and carries exactly the codepoints of its span. -/
def SegChain (cps : List Nat) : Nat → List LangSegment → Nat → Prop
  | a, [], b => a = b
  | a, seg :: rest, b =>
    seg.start = a ∧ a ≤ seg.stop ∧
      seg.text = (cps.drop a).take (seg.stop - a) ∧ SegChain cps seg.stop rest b

theorem SegChain_le (cps : List Nat) :
    ∀ segs a b, SegChain cps a segs b → a ≤ b := by
  intro segs
  induction segs with
  | nil =>
    intro a b h
    exact le_of_eq h
  | cons seg rest ih =>
    intro a b h
    obtain ⟨_, hle, _, hrest⟩ := h
    exact le_trans hle (ih _ _ hrest)

theorem SegChain_append (cps : List Nat) (seg : LangSegment) :
    ∀ segs a b, SegChain cps a segs b →
      seg.start = b → b ≤ seg.stop → seg.text = (cps.drop b).take (seg.stop - b) →
      SegChain cps a (segs ++ [seg]) seg.stop := by
  intro segs
  induction segs with
  | nil =>
    intro a b h h1 h2 h3
    cases h
    exact ⟨h1, h2, h3, rfl⟩
  | cons x rest ih =>
    intro a b h h1 h2 h3
    obtain ⟨hx1, hx2, hx3, hrest⟩ := h
    exact ⟨hx1, hx2, hx3, ih _ _ hrest h1 h2 h3⟩

theorem SegChain_join (cps : List Nat) :
    ∀ segs a b, SegChain cps a segs b →
      ((segs.map (fun s => s.text)).flatten : List Nat) = (cps.drop a).take (b - a) := by
  intro segs
  induction segs with
  | nil =>
    intro a b h
    cases h
    simp
  | cons seg rest ih =>
    intro a b h
    obtain ⟨h1, h2, h3, hrest⟩ := h
    have hmb : seg.stop ≤ b := SegChain_le cps rest seg.stop b hrest
    rw [List.map_cons, List.flatten_cons, h3, ih _ _ hrest]
    have hsplit : b - a = (seg.stop - a) + (b - seg.stop) := by omega
    have hdd : (cps.drop a).drop (seg.stop - a) = cps.drop seg.stop := by
      rw [List.drop_drop]
      congr 1
      omega
    rw [hsplit, List.take_add, hdd]

theorem SegChain_chain' (cps : List Nat) :
    ∀ segs a b, SegChain cps a segs b →
      List.Chain' (fun s t => t.start = s.stop) segs := by
  intro segs
  induction segs with
  | nil => intro a b _; simp
  | cons seg rest ih =>
    intro a b h
    cases rest with
    | nil => simp
    | cons t rest' =>
      obtain ⟨h1, h2, h3, hrest⟩ := h
      refine List.Chain'.cons ?_ (ih _ _ hrest)
      exact hrest.1

theorem SegChain_head_start (cps : List Nat) (seg : LangSegment) (rest : List LangSegment)
    (a b : Nat) (h : SegChain cps a (seg :: rest) b) : seg.start = a := h.1

theorem SegChain_last_stop (cps : List Nat) :
    ∀ segs a b, SegChain cps a segs b → segs ≠ [] →
      ((segs.getLast?).map (fun s => s.stop)) = some b := by
  intro segs
  induction segs with
  | nil => intro a b _ hne; exact absurd rfl hne
  | cons seg rest ih =>
    intro a b h _
    cases rest with
    | nil =>
      obtain ⟨h1, h2, h3, hrest⟩ := h
      cases hrest
      rfl
    | cons t rest' =>
      obtain ⟨h1, h2, h3, hrest⟩ := h
      rw [List.getLast?_cons_cons]
      exact ih _ _ hrest (by simp)

theorem findSpaceBack_bounds (cps : List Nat) (lo : Nat) :
    ∀ j r, findSpaceBack cps lo j = some r → lo ≤ r ∧ r ≤ j := by
  intro j
  induction j with
  | zero =>
    intro r h
    rw [findSpaceBack] at h
    split_ifs at h with h1 h2
    · cases h
      omega
  | succ j ih =>
    intro r h
    rw [findSpaceBack] at h
    split_ifs at h with h1 h2
    · cases h
      omega
    · have := ih r h
      omega

theorem splitPoint_bounds (cps : List Nat) (i curStart : Nat) (h : curStart < i) :
    curStart < splitPoint cps i curStart ∧ splitPoint cps i curStart ≤ i := by
  unfold splitPoint
  cases hf : findSpaceBack cps (max (i - 10) curStart) (i - 1) with
  | none => exact ⟨h, le_refl i⟩
  | some j =>
    have hb := findSpaceBack_bounds cps (max (i - 10) curStart) (i - 1) j hf
    dsimp only
    omega

/-- Loop invariant of the `split_by_language` scan: once some alphabetic
codepoint exists (ahead, or already seen), the produced segments chain
contiguously from offset 0 to the end of the text. -/
theorem splitGo_chain (cps : List Nat) :
    ∀ fuel i curLang curStart acc,
      cps.length = fuel + i →
      curStart ≤ i →
      (∀ l, curLang = some l → curStart < i) →
      SegChain cps 0 acc curStart →
      ((∃ j, i ≤ j ∧ j < cps.length ∧ classify (cps.getD j 0) ≠ none) ∨ curLang ≠ none) →
      SegChain cps 0 (splitGo cps fuel i curLang curStart acc) cps.length ∧
        splitGo cps fuel i curLang curStart acc ≠ [] := by
  intro fuel
  induction fuel with
  | zero =>
    intro i curLang curStart acc hlen hcsi hinv hchain hex
    have hi : i = cps.length := by omega
    cases curLang with
    | none =>
      exfalso
      rcases hex with ⟨j, hj1, hj2, _⟩ | hne
      · omega
      · exact hne rfl
    | some l =>
      have hcs : curStart < cps.length := by
        have := hinv l rfl
        omega
      rw [splitGo, if_pos hcs]
      constructor
      · apply SegChain_append cps _ acc 0 curStart hchain rfl (le_of_lt hcs)
        show cps.drop curStart = (cps.drop curStart).take (cps.length - curStart)
        rw [List.take_of_length_le]
        rw [List.length_drop]
      · simp
  | succ n ih =>
    intro i curLang curStart acc hlen hcsi hinv hchain hex
    have hlt : i < cps.length := by omega
    cases hcl : classify (cps.getD i 0) with
    | none =>
      simp only [splitGo, hcl]
      apply ih (i + 1) curLang curStart acc (by omega) (by omega)
        (fun l hl => by have := hinv l hl; omega) hchain
      rcases hex with ⟨j, hj1, hj2, hj3⟩ | hne
      · left
        rcases Nat.eq_or_lt_of_le hj1 with rfl | hj1'
        · exact absurd hcl hj3
        · exact ⟨j, hj1', hj2, hj3⟩
      · right
        exact hne
    | some det =>
      cases curLang with
      | none =>
        simp only [splitGo, hcl]
        apply ih (i + 1) (some det) curStart acc (by omega) (by omega)
          (fun l hl => by omega) hchain
        right
        simp
      | some l =>
        by_cases hdl : det = l
        · subst hdl
          simp only [splitGo, hcl, if_pos rfl]
          apply ih (i + 1) (some det) curStart acc (by omega) (by omega)
            (fun l' hl' => by have := hinv det rfl; omega) hchain
          right
          simp
        · simp only [splitGo, hcl, if_neg hdl]
          have hcs : curStart < i := hinv l rfl
          obtain ⟨hsa1, hsa2⟩ := splitPoint_bounds cps i curStart hcs
          rw [if_pos hsa1]
          apply ih (i + 1) (some det) (splitPoint cps i curStart) _ (by omega) (by omega)
            (fun l' hl' => by omega) ?_ (Or.inr (by simp))
          exact SegChain_append cps _ acc 0 curStart hchain rfl (le_of_lt hsa1) rfl

/-- C10: for every text with at least one Russian or English alphabetic
codepoint, the Language Splitter's segments partition the text contiguously:
the first starts at offset 0, each subsequent segment starts where the
previous one ends, the last ends at the codepoint length, and the
concatenation of the segment texts is the input text. -/
theorem C10_split_partition (cps : List Nat) (h : ∃ c ∈ cps, classify c ≠ none) :
    split_by_language cps ≠ [] ∧
    ((split_by_language cps).head?).map (fun s => s.start) = some 0 ∧
    List.Chain' (fun s t => t.start = s.stop) (split_by_language cps) ∧
    ((split_by_language cps).getLast?).map (fun s => s.stop) = some cps.length ∧
    ((split_by_language cps).map (fun s => s.text)).flatten = cps := by
  have hne : cps ≠ [] := by
    rintro rfl
    obtain ⟨c, hc, _⟩ := h
    cases hc
  have hemp : ¬cps.isEmpty := by simpa [List.isEmpty_iff] using hne
  obtain ⟨c, hc, hcl⟩ := h
  obtain ⟨j, hj, rfl⟩ := List.mem_iff_getElem.mp hc
  have hgo := splitGo_chain cps cps.length 0 none 0 [] (by omega) (le_refl 0)
    (fun l hl => by cases hl) rfl
    (Or.inl ⟨j, Nat.zero_le j, hj, by
      rw [List.getD_eq_getElem?_getD, List.getElem?_eq_getElem hj]
      exact hcl⟩)
  obtain ⟨hchain, hgne⟩ := hgo
  have hsplit : split_by_language cps = splitGo cps cps.length 0 none 0 [] := by
    unfold split_by_language
    rw [if_neg hemp]
    simp only [List.isEmpty_iff, if_neg hgne]
  rw [hsplit]
  refine ⟨hgne, ?_, SegChain_chain' cps _ _ _ hchain, SegChain_last_stop cps _ _ _ hchain hgne, ?_⟩
  · cases hs : splitGo cps cps.length 0 none 0 [] with
    | nil => exact absurd hs hgne
    | cons seg rest =>
      rw [hs] at hchain
      simp [SegChain_head_start cps seg rest 0 cps.length hchain]
  · rw [SegChain_join cps _ _ _ hchain]
    simp

/-- Witness for C10 at the concrete text "ab". -/
theorem C10_split_partition_witness :
    split_by_language (cpsOf "ab") ≠ [] ∧
    ((split_by_language (cpsOf "ab")).head?).map (fun s => s.start) = some 0 ∧
    List.Chain' (fun s t => t.start = s.stop) (split_by_language (cpsOf "ab")) ∧
    ((split_by_language (cpsOf "ab")).getLast?).map (fun s => s.stop) =
      some (cpsOf "ab").length ∧
    ((split_by_language (cpsOf "ab")).map (fun s => s.text)).flatten = cpsOf "ab" :=
  C10_split_partition (cpsOf "ab") ⟨97, by decide, by decide⟩

/-- Witness for C8 (amended) at the concrete single-language text "ab". -/
theorem C8_split_degenerate_amended_witness :
    split_by_language (cpsOf "ab") =
      [⟨cpsOf "ab", Lang.en, 0, (cpsOf "ab").length⟩] :=
  (C8_split_degenerate_amended (cpsOf "ab")).2.2 Lang.en ⟨97, by decide, by decide⟩
    (by decide)

/-- `Segment` from the source (mixed-cipher segmentation). -/
structure Segment where
  text : List Nat
  start : Nat
  stop : Nat
  best : ShiftResult
deriving DecidableEq, Repr, Inhabited

/-- `WINDOW_SIZE` from the source. -/
def WINDOW_SIZE : Nat := 40

/-- The per-window shift selection of `compute_shift_map`: try every shift,
score `0.6·bigram + 0.4·max(0, 1 - chi/500)`, keep the first strict maximum
(initial best score -1). -/
def bestShiftFor (win : List Nat) (lang : Lang) : Int :=
  ((List.range (sizeN lang)).foldl
    (fun (acc : Int × ℚ) s =>
      let dec := decrypt win (s : Int) lang
      let idxs := letter_indices dec lang
      let chi := chi_squared idxs lang
      let bg := bigram_score idxs lang
      let sc := bg * 0.6 + max 0 (1 - chi / 500) * 0.4
      if sc > acc.2 then ((s : Int), sc) else acc)
    (0, -1)).1

/-- The position loop of `compute_shift_map`, fuel-structured over indices:
non-letters copy the previous shift (0 at the start), letters get the best
shift of a centered window of up to `WINDOW_SIZE` codepoints. -/
def shiftMapGo (cps : List Nat) (lang : Lang) : Nat → Nat → Int → List Int
  | 0, _, _ => []
  | fuel + 1, i, prev =>
    if is_lang lang (cps.getD i 0) then
      let start := i - WINDOW_SIZE / 2
      let stop := min cps.length (i + WINDOW_SIZE / 2)
      let win := (cps.drop start).take (stop - start)
      let best := bestShiftFor win lang
      best :: shiftMapGo cps lang fuel (i + 1) best
    else
      prev :: shiftMapGo cps lang fuel (i + 1) prev

/-- `compute_shift_map` from the source. -/
def compute_shift_map (cps : List Nat) (lang : Lang) : List Int :=
  shiftMapGo cps lang cps.length 0 0

/-- The mode selection of the smoothing step: count the values of the ±7
window and take the first value (in order of first occurrence) whose count
strictly exceeds the running maximum, starting from the position's own value
with count 0. -/
def smoothAt (smap : List Int) (i : Nat) : Int :=
  let start := i - 7
  let stop := min smap.length (i + 8)
  let win := (smap.drop start).take (stop - start)
  let cands := win.foldl (fun (acc : List Int) v =>
    if acc.contains v then acc else acc ++ [v]) []
  (cands.foldl (fun (acc : Int × Nat) k =>
    if win.count k > acc.2 then (k, win.count k) else acc) (smap.getD i 0, 0)).1

/-- The run extraction of `find_boundaries`: walk the smoothed map and emit a
boundary wherever the value changes. -/
def runsFrom : List Int → Int → Nat → Nat → List (Nat × Nat)
  | [], _, seg_start, i => [(seg_start, i)]
  | v :: rest, cur, seg_start, i =>
    if v ≠ cur then (seg_start, i) :: runsFrom rest v i (i + 1)
    else runsFrom rest cur seg_start (i + 1)

/-- The small-segment merge step of `find_boundaries`: a segment shorter than
15 codepoints is absorbed into the previous one when it exists. -/
def mergeStep (acc : List (Nat × Nat)) (p : Nat × Nat) : List (Nat × Nat) :=
  match acc.getLast? with
  | some q => if p.2 - p.1 < 15 then acc.dropLast ++ [(q.1, p.2)] else acc ++ [p]
  | none => acc ++ [p]

/-- `find_boundaries` from the source: smoothing, run extraction, and
small-segment merging. -/
def find_boundaries (smap : List Int) (text_len : Nat) : List (Nat × Nat) :=
  match smap with
  | [] => [(0, text_len)]
  | v :: rest =>
    let smoothed := (List.range (v :: rest).length).map (smoothAt (v :: rest))
    let bounds :=
      match smoothed with
      | [] => [(0, (v :: rest).length)]
      | w :: ws => runsFrom ws w 0 1
    let merged := bounds.foldl mergeStep []
    if merged.isEmpty then [(0, text_len)] else merged

/-- UTF-8 byte length of one codepoint (`utf8_append` branch widths). -/
def utf8Len (cp : Nat) : Nat :=
  if cp < 0x80 then 1 else if cp < 0x800 then 2 else if cp < 0x10000 then 3 else 4

/-- UTF-8 byte length of a text (`text.size()` on the encoded string). -/
def byteLen (cps : List Nat) : Nat := (cps.map utf8Len).sum

/-- `detect_mixed` from the source: texts with fewer than `2×WINDOW_SIZE`
letters are cracked whole (the segment end is the byte length of the text,
as in the C++ `text.size()`); longer texts are segmented along the smoothed
shift map and each span is cracked separately. -/
def detect_mixed (cps : List Nat) (dicts : Lang → List (List Nat)) : List Segment :=
  let lang := detect_language cps
  let lc := letter_count cps lang
  if lc < WINDOW_SIZE * 2 then
    let results := crack cps lang (dicts lang)
    [⟨results.headI.text, 0, byteLen cps, results.headI⟩]
  else
    let smap := compute_shift_map cps lang
    let bounds := find_boundaries smap cps.length
    bounds.map (fun p =>
      let seg := (cps.drop p.1).take (min p.2 cps.length - p.1)
      let results := crack seg lang (dicts lang)
      ⟨results.headI.text, p.1, p.2, results.headI⟩)

/-- A list of `(start, stop)` ranges chains contiguously from `a` to `b`. -/
def PairChain : Nat → List (Nat × Nat) → Nat → Prop
  | a, [], b => a = b
  | a, p :: rest, b => p.1 = a ∧ a ≤ p.2 ∧ PairChain p.2 rest b

theorem PairChain_append_single :
    ∀ (l : List (Nat × Nat)) (a b : Nat) (p : Nat × Nat),
      PairChain a l b → p.1 = b → b ≤ p.2 → PairChain a (l ++ [p]) p.2 := by
  intro l
  induction l with
  | nil =>
    intro a b p h h1 h2
    cases h
    exact ⟨h1, h2, rfl⟩
  | cons x rest ih =>
    intro a b p h h1 h2
    obtain ⟨hx1, hx2, hrest⟩ := h
    exact ⟨hx1, hx2, ih _ _ p hrest h1 h2⟩

theorem PairChain_snoc_elim :
    ∀ (l : List (Nat × Nat)) (a b : Nat) (q : Nat × Nat),
      PairChain a (l ++ [q]) b → PairChain a l q.1 ∧ q.1 ≤ q.2 ∧ q.2 = b := by
  intro l
  induction l with
  | nil =>
    intro a b q h
    obtain ⟨h1, h2, h3⟩ := h
    exact ⟨h1.symm, by omega, h3⟩
  | cons x rest ih =>
    intro a b q h
    obtain ⟨hx1, hx2, hrest⟩ := h
    obtain ⟨hc, hq1, hq2⟩ := ih _ _ q hrest
    exact ⟨⟨hx1, hx2, hc⟩, hq1, hq2⟩

theorem PairChain_le_stop :
    ∀ (l : List (Nat × Nat)) (a b : Nat), PairChain a l b → ∀ p ∈ l, p.1 ≤ p.2 := by
  intro l
  induction l with
  | nil => intro a b _ p hp; cases hp
  | cons x rest ih =>
    intro a b h p hp
    obtain ⟨hx1, hx2, hrest⟩ := h
    rcases List.mem_cons.mp hp with rfl | hp'
    · omega
    · exact ih _ _ hrest p hp'

theorem PairChain_chain' :
    ∀ (l : List (Nat × Nat)) (a b : Nat), PairChain a l b →
      List.Chain' (fun p q => q.1 = p.2) l := by
  intro l
  induction l with
  | nil => intro a b _; simp
  | cons x rest ih =>
    intro a b h
    cases rest with
    | nil => simp
    | cons y rest' =>
      obtain ⟨hx1, hx2, hrest⟩ := h
      exact List.Chain'.cons hrest.1 (ih _ _ hrest)

theorem PairChain_last_stop :
    ∀ (l : List (Nat × Nat)) (a b : Nat), PairChain a l b → l ≠ [] →
      (l.getLast?).map (fun p => p.2) = some b := by
  intro l
  induction l with
  | nil => intro a b _ hne; exact absurd rfl hne
  | cons x rest ih =>
    intro a b h _
    cases rest with
    | nil =>
      obtain ⟨_, _, hrest⟩ := h
      cases hrest
      rfl
    | cons y rest' =>
      obtain ⟨_, _, hrest⟩ := h
      rw [List.getLast?_cons_cons]
      exact ih _ _ hrest (by simp)

theorem PairChain_head_start (p : Nat × Nat) (rest : List (Nat × Nat)) (a b : Nat)
    (h : PairChain a (p :: rest) b) : p.1 = a := h.1

/-- The run extraction produces a contiguous chain of nonempty ranges. -/
theorem runsFrom_chain :
    ∀ (rest : List Int) (cur : Int) (s i : Nat), s ≤ i →
      PairChain s (runsFrom rest cur s i) (i + rest.length) ∧ runsFrom rest cur s i ≠ [] := by
  intro rest
  induction rest with
  | nil =>
    intro cur s i hsi
    refine ⟨⟨rfl, hsi, ?_⟩, by simp [runsFrom]⟩
    rfl
  | cons v vs ih =>
    intro cur s i hsi
    rw [runsFrom]
    split_ifs with hv
    · obtain ⟨hc, hne⟩ := ih v i (i + 1) (by omega)
      refine ⟨⟨rfl, hsi, ?_⟩, by simp⟩
      have : i + 1 + vs.length = i + (v :: vs).length := by simp; omega
      rw [this] at hc
      exact hc
    · obtain ⟨hc, hne⟩ := ih cur s (i + 1) (by omega)
      have : i + 1 + vs.length = i + (v :: vs).length := by simp; omega
      rw [this] at hc
      exact ⟨hc, hne⟩

/-- Tail elements of a snoc list. -/
theorem tail_append_single {α : Type} (xs : List α) (q : α) (hxs : xs ≠ []) :
    (xs ++ [q]).tail = xs.tail ++ [q] := by
  cases xs with
  | nil => exact absurd rfl hxs
  | cons x rest => rfl

/-- The merge fold preserves the contiguous chain, keeps every segment after
the first at least 15 long, and never empties a nonempty input. -/
theorem merge_fold :
    ∀ (bs : List (Nat × Nat)) (acc : List (Nat × Nat)) (m n : Nat),
      PairChain m bs n → PairChain 0 acc m →
      (∀ p ∈ acc.tail, 15 ≤ p.2 - p.1) →
      (acc = [] → m = 0) →
      PairChain 0 (bs.foldl mergeStep acc) n ∧
        (∀ p ∈ (bs.foldl mergeStep acc).tail, 15 ≤ p.2 - p.1) ∧
        ((acc ≠ [] ∨ bs ≠ []) → bs.foldl mergeStep acc ≠ []) := by
  intro bs
  induction bs with
  | nil =>
    intro acc m n hbs hacc htail hemp
    cases hbs
    exact ⟨hacc, htail, fun h => by
      rcases h with h | h
      · simpa using h
      · exact absurd rfl h⟩
  | cons p rest ih =>
    intro acc m n hbs hacc htail hemp
    obtain ⟨hp1, hp2, hrest⟩ := hbs
    rw [List.foldl_cons]
    have hstep : PairChain 0 (mergeStep acc p) p.2 ∧
        (∀ q ∈ (mergeStep acc p).tail, 15 ≤ q.2 - q.1) ∧ mergeStep acc p ≠ [] := by
      unfold mergeStep
      cases hql : acc.getLast? with
      | none =>
        have hacc0 : acc = [] := by
          cases acc with
          | nil => rfl
          | cons x xs => simp [List.getLast?_eq_getLast] at hql
        subst hacc0
        have hm0 : m = 0 := hemp rfl
        subst hm0
        refine ⟨⟨?_, ?_, rfl⟩, by simp, by simp⟩
        · omega
        · omega
      | some q =>
        have haccne : acc ≠ [] := by
          rintro rfl
          simp at hql
        have hdec : acc = acc.dropLast ++ [q] := by
          conv_lhs => rw [← List.dropLast_append_getLast haccne]
          congr 1
          rw [List.getLast?_eq_getLast acc haccne] at hql
          exact congrArg (fun o => [o]) (Option.some_injective _ hql)
        split_ifs with hsz
        · -- short segment: absorb into the previous one
          rw [hdec] at hacc
          obtain ⟨hc, hq1, hq2⟩ := PairChain_snoc_elim _ _ _ _ hacc
          refine ⟨PairChain_append_single _ _ _ _ hc rfl (by omega), ?_, by simp⟩
          intro r hr
          by_cases hxs : acc.dropLast = []
          · rw [hxs] at hr
            simp at hr
          · rw [tail_append_single _ _ hxs] at hr
            rcases List.mem_append.mp hr with hr' | hr'
            · apply htail
              rw [hdec, tail_append_single _ _ hxs]
              exact List.mem_append_left _ hr'
            · have hq15 : 15 ≤ q.2 - q.1 := by
                apply htail
                rw [hdec, tail_append_single _ _ hxs]
                simp
              simp only [List.mem_singleton] at hr'
              subst hr'
              simp only
              omega
        · -- long segment: push
          refine ⟨PairChain_append_single _ _ _ _ hacc hp1 hp2, ?_, by simp⟩
          intro r hr
          by_cases hxs : acc = []
          · subst hxs
            simp at hr
          · rw [tail_append_single _ _ hxs] at hr
            rcases List.mem_append.mp hr with hr' | hr'
            · exact htail r hr'
            · simp only [List.mem_singleton] at hr'
              subst hr'
              omega
    obtain ⟨hs1, hs2, hs3⟩ := hstep
    obtain ⟨hr1, hr2, hr3⟩ := ih (mergeStep acc p) p.2 n hrest hs1 hs2 (fun h => absurd h hs3)
    exact ⟨hr1, hr2, fun _ => hr3 (Or.inl hs3)⟩

/-- C7 counterexample: on the shift map `8×0 ++ 40×1` (length 48 ≥ 15) the
merged output keeps the first segment `(0,8)`, which is shorter than 15
codepoints and is not the final segment — contradicting the claim that the
only short segment allowed is the final one when the whole map is under 15.
The coverage part is exhibited too: the two segments tile `[0,48)`. -/
theorem C7_counterexample :
    find_boundaries (List.replicate 8 (0 : Int) ++ List.replicate 40 1) 48 = [(0, 8), (8, 48)] ∧
    (List.replicate 8 (0 : Int) ++ List.replicate 40 1).length = 48 ∧
    8 - 0 < 15 ∧ 15 ≤ 48 := by decide

/-- C7 (amended): for every shift map, after small-segment merging the
returned ranges tile `[0, textLength)` exactly (first starts at 0, each
range starts where the previous ends, the last ends at textLength, no empty
inversions), and every range except possibly the FIRST is at least 15
codepoints long; the first range may be shorter (in particular the whole map
when it is under 15 long). -/
theorem C7_find_boundaries_amended (smap : List Int) (text_len : Nat)
    (h : smap.length = text_len) :
    find_boundaries smap text_len ≠ [] ∧
    ((find_boundaries smap text_len).head?).map (fun p => p.1) = some 0 ∧
    List.Chain' (fun p q => q.1 = p.2) (find_boundaries smap text_len) ∧
    ((find_boundaries smap text_len).getLast?).map (fun p => p.2) = some text_len ∧
    (∀ p ∈ find_boundaries smap text_len, p.1 ≤ p.2) ∧
    (∀ p ∈ (find_boundaries smap text_len).tail, 15 ≤ p.2 - p.1) := by
  cases hsm : smap with
  | nil =>
    subst hsm
    simp only [List.length_nil] at h
    subst h
    refine ⟨by simp [find_boundaries], by simp [find_boundaries], ?_, ?_, ?_, ?_⟩ <;>
      simp [find_boundaries]
  | cons v rest =>
    subst hsm
    have hchain : PairChain 0 (find_boundaries (v :: rest) text_len) text_len ∧
        (∀ p ∈ (find_boundaries (v :: rest) text_len).tail, 15 ≤ p.2 - p.1) ∧
        find_boundaries (v :: rest) text_len ≠ [] := by
      rw [find_boundaries]
      have hlen : (List.range (v :: rest).length).map (smoothAt (v :: rest)) =
          smoothAt (v :: rest) 0 ::
            ((List.range rest.length).map (fun k => smoothAt (v :: rest) (k + 1))) := by
        rw [List.length_cons, List.range_succ_eq_map]
        simp [List.map_map, Function.comp_def]
      rw [hlen]
      have hws : ((List.range rest.length).map (fun k => smoothAt (v :: rest) (k + 1))).length =
          rest.length := by
        simp
      obtain ⟨hrc, hrne⟩ := runsFrom_chain
        ((List.range rest.length).map (fun k => smoothAt (v :: rest) (k + 1)))
        (smoothAt (v :: rest) 0) 0 1 (by omega)
      rw [hws] at hrc
      have hn : (1 + rest.length) = text_len := by
        simp at h
        omega
      rw [hn] at hrc
      obtain ⟨hm1, hm2, hm3⟩ := merge_fold _ [] 0 text_len hrc rfl (by simp) (fun _ => rfl)
      have hmne := hm3 (Or.inr hrne)
      rw [if_neg (by simpa [List.isEmpty_iff] using hmne)]
      exact ⟨hm1, hm2, hmne⟩
    obtain ⟨hc, ht, hne⟩ := hchain
    refine ⟨hne, ?_, PairChain_chain' _ _ _ hc, PairChain_last_stop _ _ _ hc hne,
      PairChain_le_stop _ _ _ hc, ht⟩
    cases hfb : find_boundaries (v :: rest) text_len with
    | nil => exact absurd hfb hne
    | cons p ps =>
      rw [hfb] at hc
      simp [PairChain_head_start p ps 0 text_len hc]

/-- Witness for the amended C7 at the concrete constant shift map `[0,0,0]`. -/
theorem C7_find_boundaries_amended_witness :
    find_boundaries [(0 : Int), 0, 0] 3 ≠ [] ∧
    ((find_boundaries [(0 : Int), 0, 0] 3).head?).map (fun p => p.1) = some 0 ∧
    List.Chain' (fun p q => q.1 = p.2) (find_boundaries [(0 : Int), 0, 0] 3) ∧
    ((find_boundaries [(0 : Int), 0, 0] 3).getLast?).map (fun p => p.2) = some 3 ∧
    (∀ p ∈ find_boundaries [(0 : Int), 0, 0] 3, p.1 ≤ p.2) ∧
    (∀ p ∈ (find_boundaries [(0 : Int), 0, 0] 3).tail, 15 ≤ p.2 - p.1) :=
  C7_find_boundaries_amended [(0 : Int), 0, 0] 3 (by decide)

/-- On the short-text path the segment of `detect_mixed` spans from 0 to the
UTF-8 byte length of the text, whatever the dictionary contents. -/
theorem detect_mixed_short_span (cps : List Nat) (dicts : Lang → List (List Nat))
    (h : letter_count cps (detect_language cps) < WINDOW_SIZE * 2) :
    (detect_mixed cps dicts).map (fun s => (s.start, s.stop)) = [(0, byteLen cps)] := by
  simp only [detect_mixed]
  rw [if_pos h]
  simp

/-- C9: "Привет" has 6 codepoints and 6 Russian letters (fewer than 80), so
segmentation is skipped; but the single returned segment ends at 12 — the
UTF-8 byte length that `text.size()` yields — not at the codepoint length 6
required by the Segment convention of the spec. -/
theorem C9_detect_mixed_byte_end :
    (detect_mixed (cpsOf "Привет") (fun _ => [])).map (fun s => (s.start, s.stop)) =
      [(0, 12)] ∧
    (cpsOf "Привет").length = 6 := by
  constructor
  · have hspan := detect_mixed_short_span (cpsOf "Привет") (fun _ => []) (by decide)
    have hb : byteLen (cpsOf "Привет") = 12 := by decide
    rw [hspan, hb]
  · decide

end Caesar
